import Mathlib

/-!
Shallow embedding of the `pipeline` repository (Go): a streaming OHLC candle
aggregator.  Times are modelled as `Int` nanoseconds since the Unix epoch
(Go `time.Time` has nanosecond precision and all timestamps here are UTC);
Go `int` values (prices, counts) are modelled as unbounded `Int` — overflow is
irrelevant at the magnitudes the program handles.  Go's `%` and `/` on `int`
are truncated division, modelled with `Int.tmod` / `Int.tdiv`.
Channels are modelled by collecting the values sent on them into lists, in
send order; Go map iteration order is unspecified, modelled here by an
association list in insertion order (a deterministic refinement that does not
affect any per-candle or per-flush property proved below).
-/

namespace Pipeline

/-! ### Price codec (`parsePrice` / `formatPrice` from pipeline.go) -/

/-- Decimal digit character for `d < 10`, as produced by Go's `%d` verb. -/
def digitChar (d : Nat) : Char := Char.ofNat (48 + d)

/-- Little-endian decimal digits of `n`, with explicit fuel (the recursion is
on `n / 10`, which the fuel bounds).  Models the digit sequence printed by
Go's `%d` for a positive integer. -/
def natDigitsAux : Nat → Nat → List Char
  | 0, _ => []
  | fuel + 1, n => if n = 0 then [] else digitChar (n % 10) :: natDigitsAux fuel (n / 10)

/-- Decimal representation of a natural number, as printed by Go's `%d`. -/
def natRepr (n : Nat) : String :=
  if n = 0 then "0" else ⟨(natDigitsAux n n).reverse⟩

/-- Decimal representation of an integer, as printed by Go's `%d`. -/
def intRepr (i : Int) : String :=
  if i < 0 then "-" ++ natRepr (-i).toNat else natRepr i.toNat

/-- Value of a decimal digit character, `none` for a non-digit. -/
def digitVal (c : Char) : Option Nat :=
  if '0' ≤ c ∧ c ≤ '9' then some (c.toNat - 48) else none

/-- Left-to-right accumulation of decimal digits; fails on any non-digit.
This is the digit-consuming core of Go's `strconv.ParseInt(_, 10, 0)`. -/
def parseDigitsAux : List Char → Nat → Option Nat
  | [], acc => some acc
  | c :: cs, acc =>
    match digitVal c with
    | some d => parseDigitsAux cs (acc * 10 + d)
    | none => none

/-- Model of Go's `strconv.ParseInt(s, 10, 0)`: an optional single sign
followed by at least one decimal digit.  (The 64-bit range check is not
modelled; no value in this development approaches it.) -/
def parseGoInt (s : String) : Option Int :=
  match s.data with
  | [] => none
  | c :: cs =>
    if c = '-' then
      if cs = [] then none else (parseDigitsAux cs 0).map (fun n => -(n : Int))
    else if c = '+' then
      if cs = [] then none else (parseDigitsAux cs 0).map (fun n => (n : Int))
    else
      (parseDigitsAux (c :: cs) 0).map (fun n => (n : Int))

/-- Split a character list at the first occurrence of `sep`:
models Go's `strings.SplitN(str, sep, 2)`.  Returns the prefix and, when the
separator occurs, the remainder after it. -/
def splitFirst (sep : Char) : List Char → List Char × Option (List Char)
  | [] => ([], none)
  | c :: cs =>
    if c = sep then ([], some cs)
    else
      let p := splitFirst sep cs
      (c :: p.1, p.2)

/-- Model of `parsePrice` (pipeline.go): split on the first dot, parse the
whole-unit part, right-pad a one-digit cents part with `"0"`, parse it, and
return `whole * 100 + cents`. -/
def parsePrice (s : String) : Option Int :=
  let ps := splitFirst '.' s.data
  match parseGoInt ⟨ps.1⟩ with
  | none => none
  | some i =>
    match ps.2 with
    | none => some (i * 100)
    | some cents0 =>
      let cents := if cents0.length = 1 then cents0 ++ ['0'] else cents0
      match parseGoInt ⟨cents⟩ with
      | none => none
      | some j => some (i * 100 + j)

/-- Model of `formatPrice` (pipeline.go): `rem := price % 100`; if `rem > 0`
print `price/100 . rem` with a multiple-of-ten remainder shortened to one
digit, else print just `price/100`.  Division and remainder are Go's
truncated operations. -/
def formatPrice (price : Int) : String :=
  let rem := price.tmod 100
  if 0 < rem then
    let rem2 := if rem.tmod 10 = 0 then rem.tdiv 10 else rem
    intRepr (price.tdiv 100) ++ "." ++ intRepr rem2
  else
    intRepr (price.tdiv 100)

/-! ### Calendar and timestamps

Go's `time` library is external to the repository; the fixed layout
`"2006-01-02 15:04:05.999999"` used by `parse`, and the `time.Time`
arithmetic used by `process`, are modelled on `Int` nanoseconds since the
Unix epoch with the standard civil-calendar conversion. -/

def nsPerSecond : Int := 1000000000

def nsPerMinute : Int := 60 * nsPerSecond

def nsPerDay : Int := 24 * 60 * nsPerMinute

/-- Gregorian leap-year rule. -/
def isLeap (y : Nat) : Bool := (y % 4 == 0 && y % 100 != 0) || y % 400 == 0

/-- Number of days in month `m` (1-based) of year `y`. -/
def daysInMonth (y m : Nat) : Nat :=
  if m = 2 then (if isLeap y then 29 else 28)
  else if m = 4 ∨ m = 6 ∨ m = 9 ∨ m = 11 then 30
  else 31

/-- Days from the Unix epoch (1970-01-01) to civil date `y-m-d`
(the standard days-from-civil algorithm; `m ∈ [1,12]`, `d ≥ 1`, `y ≥ 1`). -/
def daysFromCivil (y m d : Nat) : Int :=
  let y' := if m ≤ 2 then y - 1 else y
  let era := y' / 400
  let yoe := y' % 400
  let mp := (m + 9) % 12
  let doy := (153 * mp + 2) / 5 + d - 1
  let doe := yoe * 365 + yoe / 4 - yoe / 100 + doy
  (era : Int) * 146097 + (doe : Int) - 719468

/-- Interprets all characters as decimal digits; fails otherwise. -/
def digitsToNat (cs : List Char) : Option Nat :=
  if cs.all (fun c => '0' ≤ c ∧ c ≤ '9') then parseDigitsAux cs 0 else none

/-- Nanoseconds since the Unix epoch for the given civil date and time. -/
def tsNs (y mo d h mi se frac : Nat) : Int :=
  daysFromCivil y mo d * nsPerDay
    + ((h * 3600 + mi * 60 + se : Nat) : Int) * nsPerSecond + (frac : Int)

/-- Model of `time.Parse("2006-01-02 15:04:05.999999", s)` as used by `parse`:
a fixed `YYYY-MM-DD HH:MM:SS` skeleton with field range checks (month, day in
month, hour, minute, second) and an optional fractional-second part of one to
six digits, scaled to nanoseconds.  Returns UTC nanoseconds since the epoch. -/
def parseTimestamp (s : String) : Option Int :=
  match s.data with
  | y1 :: y2 :: y3 :: y4 :: '-' :: m1 :: m2 :: '-' :: d1 :: d2 :: ' '
      :: h1 :: h2 :: ':' :: mi1 :: mi2 :: ':' :: s1 :: s2 :: rest =>
    match digitsToNat [y1, y2, y3, y4], digitsToNat [m1, m2], digitsToNat [d1, d2],
        digitsToNat [h1, h2], digitsToNat [mi1, mi2], digitsToNat [s1, s2] with
    | some y, some mo, some d, some h, some mi, some se =>
      if 1 ≤ y ∧ 1 ≤ mo ∧ mo ≤ 12 ∧ 1 ≤ d ∧ d ≤ daysInMonth y mo
          ∧ h ≤ 23 ∧ mi ≤ 59 ∧ se ≤ 59 then
        match rest with
        | [] => some (tsNs y mo d h mi se 0)
        | '.' :: fr =>
          match digitsToNat fr with
          | some v =>
            if 1 ≤ fr.length ∧ fr.length ≤ 6 then
              some (tsNs y mo d h mi se (v * 10 ^ (9 - fr.length)))
            else none
          | none => none
        | _ => none
      else none
    | _, _, _, _, _, _ => none
  | _ => none

/-! ### Data model and line parser (`Line`, `parse` from pipeline.go) -/

/-- One parsed tick (Go struct `Line`); the timestamp is UTC nanoseconds
since the Unix epoch. -/
structure Line where
  ticker : String
  timestamp : Int
  price : Int
  count : Int
deriving DecidableEq, Repr

/-- The error kinds `parse` can report (Go returns distinct wrapped errors;
only their identity matters to the pipeline). -/
inductive ParseErr where
  | invalidFormat
  | badPrice
  | badCount
  | badTimestamp
deriving DecidableEq, Repr

/-- Split a character list at every occurrence of a comma:
models Go's `strings.Split(str, ",")`. -/
def splitOnComma : List Char → List (List Char)
  | [] => [[]]
  | c :: cs =>
    match splitOnComma cs with
    | [] => [[c]]
    | p :: rest => if c = ',' then [] :: p :: rest else (c :: p) :: rest

/-- Model of `parse` (pipeline.go): split on commas, require at least four
fields, then parse ticker, price, count and timestamp in that order, stopping
at the first failure.  Extra trailing fields are ignored. -/
def parse (s : String) : Except ParseErr Line :=
  let parts := (splitOnComma s.data).map (fun l => (⟨l⟩ : String))
  if parts.length < 4 then .error .invalidFormat
  else
    match parsePrice (parts.getD 1 "") with
    | none => .error .badPrice
    | some price =>
      match parseGoInt (parts.getD 2 "") with
      | none => .error .badCount
      | some count =>
        match parseTimestamp (parts.getD 3 "") with
        | none => .error .badTimestamp
        | some ts =>
          .ok { ticker := parts.getD 0 "", timestamp := ts, price := price, count := count }

/-! ### Reader (`read` from pipeline.go)

The reader scans the input line by line; on a parse failure it sends the
error on the error channel and then still sends the (nil) `line` pointer to
every output channel — modelled as `none`.  Every consumer receives the same
sequence, so one forwarded list stands for all of them.  The first component
collects the error channel, the second the per-consumer forwarded values. -/

def read : List String → List ParseErr × List (Option Line)
  | [] => ([], [])
  | s :: rest =>
    let r := read rest
    match parse s with
    | .ok line => (r.1, some line :: r.2)
    | .error e => (e :: r.1, none :: r.2)

/-! ### Candles and the window aggregator (`Candle`, `newCandle`, `process`) -/

/-- One OHLC candle (Go struct `Candle`); `start` is the window start in UTC
nanoseconds since the epoch. -/
structure Candle where
  ticker : String
  start : Int
  priceStart : Int
  priceEnd : Int
  priceMin : Int
  priceMax : Int
deriving DecidableEq, Repr

/-- Model of `newCandle` (pipeline.go): all four prices start equal. -/
def newCandle (ts : Int) (ticker : String) (price : Int) : Candle :=
  { ticker := ticker, start := ts, priceStart := price,
    priceMax := price, priceMin := price, priceEnd := price }

/-- Session start offset from midnight: `TradesStart = 420 min` (07:00 UTC). -/
def TradesStart : Int := 420 * nsPerMinute

/-- Session length: `TradesDuration = 1020 min` (so the session ends at the
next midnight, 24:00 UTC). -/
def TradesDuration : Int := 1020 * nsPerMinute

/-- The candles map `map[string]*Candle`, modelled as an association list in
insertion order (Go's map iteration order is unspecified). -/
abbrev CandleMap := List (String × Candle)

/-- Lookup in the candles map (`candle, ok := candles[ticker]`). -/
def mapLookup (m : CandleMap) (k : String) : Option Candle :=
  match m with
  | [] => none
  | (k', c) :: rest => if k' = k then some c else mapLookup rest k

/-- In-place mutation of one entry (the Go code mutates the candle through
its pointer). -/
def mapUpdate (m : CandleMap) (k : String) (f : Candle → Candle) : CandleMap :=
  match m with
  | [] => []
  | (k', c) :: rest => if k' = k then (k', f c) :: rest else (k', c) :: mapUpdate rest k f

/-- The whole mutable state of one `process` goroutine: the current calendar
day (midnight), the current window `[l, r)`, the session end `max`, and the
open candles. -/
structure AggState where
  day : Int
  l : Int
  r : Int
  max : Int
  candles : CandleMap
deriving DecidableEq, Repr

/-- The per-tick candle mutation in `process`'s aggregation section:
lower `PriceMin`, raise `PriceMax`, overwrite `PriceEnd`. -/
def updateCandle (c : Candle) (price : Int) : Candle :=
  let c1 := if price < c.priceMin then { c with priceMin := price } else c
  let c2 := if price > c1.priceMax then { c1 with priceMax := price } else c1
  { c2 with priceEnd := price }

/-- The `// aggregate lines by ticker` section of `process`: update the
ticker's open candle, or create one starting at the current `interval.l`. -/
def aggregate (st : AggState) (line : Line) : AggState :=
  match mapLookup st.candles line.ticker with
  | some _ =>
    { st with candles := mapUpdate st.candles line.ticker (fun c => updateCandle c line.price) }
  | none =>
    { st with candles := st.candles ++ [(line.ticker, newCandle st.l line.ticker line.price)] }

/-- One iteration of the `// adjust interval` loop body in `process`: if the
window end reached the session end, roll over to the next calendar day's
session, else slide the window by `span`, clipping `r` to the session end. -/
def adjustStep (span : Int) (st : AggState) : AggState :=
  if st.r = st.max then
    let day := st.day + nsPerDay
    let l := day + TradesStart
    { day := day, l := l, r := l + span, max := l + TradesDuration, candles := st.candles }
  else
    let r := st.r + span
    { st with l := st.l + span, r := if st.max < r then st.max else r }

/-- The `// adjust interval` loop (`for line.Timestamp.After(interval.r)`),
with explicit fuel; each iteration strictly increases `r` (for the spans the
program uses), so the fuel chosen in `adjust` below always suffices. -/
def adjustFuel (span ts : Int) : Nat → AggState → AggState
  | 0, st => st
  | fuel + 1, st => if st.r < ts then adjustFuel span ts fuel (adjustStep span st) else st

/-- The `// adjust interval` loop of `process`, run to completion. -/
def adjust (span ts : Int) (st : AggState) : AggState :=
  adjustFuel span ts ((ts - st.r).toNat + 1) st

/-- One iteration of the main `for line := range in` loop of `process`:
discard a tick before `l`; on a tick at or after `r`, flush every open candle
(emitting the second component) and clear the map, then run the adjust loop;
finally aggregate the tick. -/
def processStep (span : Int) (st : AggState) (line : Line) : AggState × List Candle :=
  if line.timestamp < st.l then (st, [])
  else
    let fl :=
      if st.r ≤ line.timestamp then
        (adjust span line.timestamp { st with candles := [] }, st.candles.map Prod.snd)
      else (st, ([] : List Candle))
    (aggregate fl.1 line, fl.2)

/-- The main loop of `process` over the remaining ticks, collecting every
emitted candle in order. -/
def processLoop (span : Int) : AggState → List Line → AggState × List Candle
  | st, [] => (st, [])
  | st, line :: rest =>
    let s1 := processStep span st line
    let s2 := processLoop span s1.1 rest
    (s2.1, s1.2 ++ s2.2)

/-- The initialisation of `process` from the first received tick: the
calendar day is the tick's civil day (midnight, UTC), the session starts at
`day + TradesStart`, the first window is `[start, start + span)`, and a first
tick not before `start` immediately opens a candle at `start` (no check
against the window end). -/
def initState (span : Int) (line : Line) : AggState :=
  let day := nsPerDay * (line.timestamp.ediv nsPerDay)
  let start := day + TradesStart
  let st : AggState :=
    { day := day, l := start, r := start + span, max := start + TradesDuration, candles := [] }
  if line.timestamp < start then st
  else { st with candles := [(line.ticker, newCandle start line.ticker line.price)] }

/-- Model of `process` (pipeline.go): the empty stream emits nothing;
otherwise initialise from the first tick, run the main loop, and finally
emit the remaining open candles. -/
def process (span : Int) (lines : List Line) : List Candle :=
  match lines with
  | [] => []
  | first :: rest =>
    let s := processLoop span (initState span first) rest
    s.2 ++ s.1.candles.map Prod.snd

/-! ### Writer (`write` from pipeline.go)

The underlying `io.Writer` is external; whether the `i`-th write attempt
fails is modelled by an oracle `failAt`.  The writer formats and writes one
record per candle regardless of earlier failures, reports each failure on the
error channel, and signals completion once when its input is exhausted. -/

/-- Zero-padded two-digit decimal field. -/
def pad2 (n : Nat) : String := if n < 10 then "0" ++ natRepr n else natRepr n

/-- Zero-padded four-digit decimal field (years). -/
def pad4 (n : Nat) : String :=
  if n < 10 then "000" ++ natRepr n
  else if n < 100 then "00" ++ natRepr n
  else if n < 1000 then "0" ++ natRepr n
  else natRepr n

/-- Civil date from a day count since the Unix epoch (the standard
civil-from-days algorithm); returns `(year, month, day)`. -/
def civilFromDays (z : Int) : Int × Nat × Nat :=
  let z' := z + 719468
  let era := z'.fdiv 146097
  let doe := (z' - era * 146097).toNat
  let yoe := (doe - doe / 1460 + doe / 36524 - doe / 146096) / 365
  let doy := doe - (365 * yoe + yoe / 4 - yoe / 100)
  let mp := (5 * doy + 2) / 153
  let d := doy - (153 * mp + 2) / 5 + 1
  let m := if mp < 10 then mp + 3 else mp - 9
  ((yoe : Int) + era * 400 + (if m ≤ 2 then 1 else 0), m, d)

/-- Model of `time.Time.Format(time.RFC3339)` for a UTC instant on a whole
second: `YYYY-MM-DDTHH:MM:SSZ`. -/
def rfc3339 (t : Int) : String :=
  let days := t.fdiv nsPerDay
  let rem := (t - days * nsPerDay).toNat
  let ymd := civilFromDays days
  let secs := rem / 1000000000
  (if ymd.1 < 0 then "-" ++ pad4 (-ymd.1).toNat else pad4 ymd.1.toNat)
    ++ "-" ++ pad2 ymd.2.1 ++ "-" ++ pad2 ymd.2.2
    ++ "T" ++ pad2 (secs / 3600) ++ ":" ++ pad2 (secs % 3600 / 60)
    ++ ":" ++ pad2 (secs % 60) ++ "Z"

/-- The record `write` produces for one candle with its `Fprintf` format
string: ticker, RFC3339 window start, then open, max, min, close prices. -/
def candleRecord (c : Candle) : String :=
  c.ticker ++ "," ++ rfc3339 c.start
    ++ "," ++ formatPrice c.priceStart ++ "," ++ formatPrice c.priceMax
    ++ "," ++ formatPrice c.priceMin ++ "," ++ formatPrice c.priceEnd ++ "\n"

/-- The `for candle := range in` loop of `write`, starting at write-attempt
index `i`: returns the attempted records and the indices reported on the
error channel. -/
def writeLoop (failAt : Nat → Bool) : Nat → List Candle → List String × List Nat
  | _, [] => ([], [])
  | i, c :: rest =>
    let r := writeLoop failAt (i + 1) rest
    (candleRecord c :: r.1, if failAt i then i :: r.2 else r.2)

/-- Model of `write` (pipeline.go): drain the whole input, then signal
completion; returns (attempted records, reported write errors, number of
completion signals). -/
def write (failAt : Nat → Bool) (cs : List Candle) : List String × List Nat × Nat :=
  let r := writeLoop failAt 0 cs
  (r.1, r.2, 1)

/-! ### Decimal digit lemmas -/

theorem natDigitsAux_zero (fuel : Nat) : natDigitsAux fuel 0 = [] := by
  cases fuel <;> simp [natDigitsAux]

theorem digitChar_bounds {d : Nat} (h : d < 10) : '0' ≤ digitChar d ∧ digitChar d ≤ '9' := by
  interval_cases d <;> decide

theorem digitVal_digitChar {d : Nat} (h : d < 10) : digitVal (digitChar d) = some d := by
  interval_cases d <;> decide

theorem natDigitsAux_mem {fuel : Nat} :
    ∀ {n : Nat} {c : Char}, c ∈ natDigitsAux fuel n → '0' ≤ c ∧ c ≤ '9' := by
  induction fuel with
  | zero => intro n c h; simp [natDigitsAux] at h
  | succ fuel ih =>
    intro n c h
    by_cases hn : n = 0
    · simp [natDigitsAux, hn] at h
    · rw [natDigitsAux, if_neg hn] at h
      rcases List.mem_cons.mp h with h | h
      · subst h; exact digitChar_bounds (Nat.mod_lt _ (by omega))
      · exact ih h

theorem parseDigitsAux_append (l1 l2 : List Char) (acc : Nat) :
    parseDigitsAux (l1 ++ l2) acc = (parseDigitsAux l1 acc).bind (fun a => parseDigitsAux l2 a) := by
  induction l1 generalizing acc with
  | nil => simp [parseDigitsAux]
  | cons c cs ih =>
    simp only [List.cons_append, parseDigitsAux]
    cases digitVal c <;> simp [ih]

theorem parseDigitsAux_natDigits {fuel : Nat} :
    ∀ {n acc : Nat}, 0 < n → n ≤ fuel →
      parseDigitsAux ((natDigitsAux fuel n).reverse) acc
        = some (acc * 10 ^ (natDigitsAux fuel n).length + n) := by
  induction fuel with
  | zero => intro n acc h1 h2; omega
  | succ fuel ih =>
    intro n acc h1 h2
    rw [natDigitsAux, if_neg (by omega)]
    by_cases hn : n < 10
    · have h10 : n / 10 = 0 := Nat.div_eq_of_lt hn
      have hm : n % 10 = n := Nat.mod_eq_of_lt hn
      rw [h10, natDigitsAux_zero, hm]
      simp [parseDigitsAux, digitVal_digitChar hn]
    · have hdpos : 0 < n / 10 := Nat.div_pos (by omega) (by omega)
      have hdle : n / 10 ≤ fuel := by
        have := Nat.div_lt_self h1 (by omega : 1 < 10)
        omega
      rw [List.reverse_cons, parseDigitsAux_append, ih hdpos hdle]
      have hmod : n % 10 < 10 := Nat.mod_lt _ (by omega)
      simp only [Option.some_bind, parseDigitsAux, digitVal_digitChar hmod]
      congr 1
      simp only [List.length_cons, pow_succ, ← mul_assoc]
      generalize acc * 10 ^ (natDigitsAux fuel (n / 10)).length = k
      omega

theorem parseGoInt_digits (l : List Char) (hne : l ≠ [])
    (hd : ∀ c ∈ l, '0' ≤ c ∧ c ≤ '9') :
    parseGoInt ⟨l⟩ = (parseDigitsAux l 0).map (fun n => (n : Int)) := by
  cases l with
  | nil => simp at hne
  | cons c cs =>
    have hc := hd c (List.mem_cons_self c cs)
    have h1 : c ≠ '-' := fun h => by subst h; exact absurd hc.1 (by decide)
    have h2 : c ≠ '+' := fun h => by subst h; exact absurd hc.1 (by decide)
    simp [parseGoInt, h1, h2]

theorem natDigitsAux_ne_nil {n : Nat} (h : 0 < n) : natDigitsAux n n ≠ [] := by
  cases n with
  | zero => omega
  | succ m => simp [natDigitsAux]

theorem parseGoInt_natRepr (n : Nat) : parseGoInt (natRepr n) = some (n : Int) := by
  by_cases hn : n = 0
  · subst hn; decide
  · rw [natRepr, if_neg hn]
    rw [parseGoInt_digits _ (by simpa using natDigitsAux_ne_nil (by omega))
      (fun c hc => natDigitsAux_mem (List.mem_reverse.mp hc))]
    rw [parseDigitsAux_natDigits (by omega) (le_refl n)]
    simp

theorem natDigitsAux_single {fuel n : Nat} (h1 : 0 < n) (h2 : n < 10) (hf : 0 < fuel) :
    natDigitsAux fuel n = [digitChar n] := by
  cases fuel with
  | zero => omega
  | succ fuel =>
    rw [natDigitsAux, if_neg (by omega), Nat.div_eq_of_lt h2, natDigitsAux_zero,
      Nat.mod_eq_of_lt h2]

theorem natDigitsAux_pair {fuel n : Nat} (h1 : 10 ≤ n) (h2 : n ≤ 99) (hf : 2 ≤ fuel) :
    natDigitsAux fuel n = [digitChar (n % 10), digitChar (n / 10)] := by
  cases fuel with
  | zero => omega
  | succ fuel =>
    rw [natDigitsAux, if_neg (by omega),
      natDigitsAux_single (by omega) (by omega) (by omega)]

theorem natRepr_data_single {n : Nat} (h : n ≤ 9) : (natRepr n).data = [digitChar n] := by
  by_cases hn : n = 0
  · subst hn; decide
  · rw [natRepr, if_neg hn, natDigitsAux_single (by omega) (by omega) (by omega)]
    rfl

theorem natRepr_data_pair {n : Nat} (h1 : 10 ≤ n) (h2 : n ≤ 99) :
    (natRepr n).data = [digitChar (n / 10), digitChar (n % 10)] := by
  rw [natRepr, if_neg (by omega), natDigitsAux_pair h1 h2 (by omega)]
  rfl

theorem natRepr_no_dot (m : Nat) : '.' ∉ (natRepr m).data := by
  by_cases h : m = 0
  · subst h; decide
  · rw [natRepr, if_neg h]
    intro hc
    exact absurd (natDigitsAux_mem (List.mem_reverse.mp hc)).1 (by decide)

theorem splitFirst_no_sep {sep : Char} : ∀ {l : List Char}, sep ∉ l →
    splitFirst sep l = (l, none) := by
  intro l
  induction l with
  | nil => intro _; rfl
  | cons c cs ih =>
    intro h
    rw [splitFirst, if_neg (fun hc => h (by rw [← hc]; exact List.mem_cons_self c cs)),
      ih (fun hm => h (List.mem_cons_of_mem c hm))]

theorem splitFirst_sep {sep : Char} : ∀ {l1 : List Char} (l2 : List Char), sep ∉ l1 →
    splitFirst sep (l1 ++ sep :: l2) = (l1, some l2) := by
  intro l1
  induction l1 with
  | nil => intro l2 _; simp [splitFirst]
  | cons c cs ih =>
    intro l2 h
    rw [List.cons_append, splitFirst, if_neg (fun hc => h (by rw [← hc]; exact List.mem_cons_self c cs)),
      ih l2 (fun hm => h (List.mem_cons_of_mem c hm))]

/-! ### Price codec characterization -/

theorem intRepr_coe (m : Nat) : intRepr (m : Int) = natRepr m := by
  rw [intRepr, if_neg (by omega)]
  congr 1

theorem parsePrice_natRepr (w : Nat) : parsePrice (natRepr w) = some ((w : Int) * 100) := by
  have hs : splitFirst '.' (natRepr w).data = ((natRepr w).data, none) :=
    splitFirst_no_sep (natRepr_no_dot w)
  simp only [parsePrice, hs]
  rw [show (⟨(natRepr w).data⟩ : String) = natRepr w from rfl, parseGoInt_natRepr]

theorem parsePrice_dot (w : Nat) (B : List Char) :
    parsePrice (natRepr w ++ "." ++ (⟨B⟩ : String))
      = (parseGoInt ⟨if B.length = 1 then B ++ ['0'] else B⟩).map
          (fun j => (w : Int) * 100 + j) := by
  have hdata : (natRepr w ++ "." ++ (⟨B⟩ : String)).data = (natRepr w).data ++ '.' :: B := by
    simp [String.data_append]
  have hs : splitFirst '.' ((natRepr w).data ++ '.' :: B) = ((natRepr w).data, some B) :=
    splitFirst_sep B (natRepr_no_dot w)
  simp only [parsePrice, hdata, hs]
  rw [show (⟨(natRepr w).data⟩ : String) = natRepr w from rfl, parseGoInt_natRepr]
  cases h : parseGoInt ⟨if B.length = 1 then B ++ ['0'] else B⟩ <;> simp [h]

theorem parseGoInt_cents_single {c : Nat} (h : c ≤ 9) :
    parseGoInt ⟨if ((natRepr c).data).length = 1 then (natRepr c).data ++ ['0'] else (natRepr c).data⟩
      = some ((c * 10 : Nat) : Int) := by
  have h10 : c < 10 := by omega
  rw [natRepr_data_single h]
  rw [if_pos (by simp)]
  rw [show [digitChar c] ++ ['0'] = [digitChar c, '0'] from rfl]
  rw [parseGoInt_digits _ (by simp)
    (by
      intro ch hch
      rcases List.mem_cons.mp hch with h1 | h1
      · exact h1 ▸ digitChar_bounds h10
      · simp only [List.mem_singleton] at h1
        subst h1; decide)]
  have h0 : digitVal '0' = some 0 := by decide
  have hval : parseDigitsAux [digitChar c, '0'] 0 = some (c * 10) := by
    simp only [parseDigitsAux, digitVal_digitChar h10, h0]
    congr 1
    omega
  rw [hval]
  rfl

theorem parseGoInt_cents_pair {c : Nat} (h1 : 10 ≤ c) (h2 : c ≤ 99) :
    parseGoInt ⟨if ((natRepr c).data).length = 1 then (natRepr c).data ++ ['0'] else (natRepr c).data⟩
      = some ((c : Nat) : Int) := by
  have hq : c / 10 < 10 := by omega
  have hm : c % 10 < 10 := by omega
  rw [natRepr_data_pair h1 h2]
  rw [if_neg (by simp)]
  rw [parseGoInt_digits _ (by simp)
    (by
      intro ch hch
      rcases List.mem_cons.mp hch with h | h
      · exact h ▸ digitChar_bounds hq
      · simp only [List.mem_singleton] at h
        exact h ▸ digitChar_bounds hm)]
  have hval : parseDigitsAux [digitChar (c / 10), digitChar (c % 10)] 0 = some c := by
    simp only [parseDigitsAux, digitVal_digitChar hq, digitVal_digitChar hm]
    congr 1
    omega
  rw [hval]
  rfl

theorem formatPrice_coe (n : Nat) :
    formatPrice (n : Int) =
      if 0 < n % 100 then
        (if n % 100 % 10 = 0 then natRepr (n / 100) ++ "." ++ natRepr (n % 100 / 10)
         else natRepr (n / 100) ++ "." ++ natRepr (n % 100))
      else natRepr (n / 100) := by
  have e1 : (n : Int).tmod 100 = ((n % 100 : Nat) : Int) := rfl
  have e2 : (n : Int).tdiv 100 = ((n / 100 : Nat) : Int) := rfl
  have e3 : ((n % 100 : Nat) : Int).tmod 10 = ((n % 100 % 10 : Nat) : Int) := rfl
  have e4 : ((n % 100 : Nat) : Int).tdiv 10 = ((n % 100 / 10 : Nat) : Int) := rfl
  simp only [formatPrice, e1, e2, e3, e4, intRepr_coe]
  by_cases h0 : 0 < n % 100
  · rw [if_pos (by exact_mod_cast h0), if_pos h0]
    by_cases h10 : n % 100 % 10 = 0
    · rw [if_pos (by exact_mod_cast h10), if_pos h10, intRepr_coe]
    · rw [if_neg (by exact_mod_cast h10), if_neg h10, intRepr_coe]
  · rw [if_neg (by exact_mod_cast h0), if_neg h0]

theorem parsePrice_formatPrice_coe (n : Nat) :
    parsePrice (formatPrice (n : Int))
      = some (((n / 100 * 100 : Nat) : Int)
          + ((if n % 100 ≤ 9 then n % 100 * 10 else n % 100 : Nat) : Int)) := by
  rw [formatPrice_coe]
  by_cases h0 : 0 < n % 100
  · rw [if_pos h0]
    by_cases h10 : n % 100 % 10 = 0
    · have h9 : n % 100 / 10 ≤ 9 := by omega
      have hge : ¬ (n % 100 ≤ 9) := by omega
      rw [if_pos h10,
        show natRepr (n % 100 / 10) = (⟨(natRepr (n % 100 / 10)).data⟩ : String) from rfl,
        parsePrice_dot, parseGoInt_cents_single h9, if_neg hge]
      simp only [Option.map_some']
      congr 1
      push_cast
      have : n % 100 / 10 * 10 = n % 100 := by omega
      omega
    · rw [if_neg h10]
      by_cases h9 : n % 100 ≤ 9
      · rw [show natRepr (n % 100) = (⟨(natRepr (n % 100)).data⟩ : String) from rfl,
          parsePrice_dot, parseGoInt_cents_single h9, if_pos h9]
        simp only [Option.map_some', Option.some.injEq]
        try push_cast
        try omega
      · rw [show natRepr (n % 100) = (⟨(natRepr (n % 100)).data⟩ : String) from rfl,
          parsePrice_dot, parseGoInt_cents_pair (by omega) (by omega), if_neg h9]
        simp only [Option.map_some', Option.some.injEq]
        try push_cast
        try omega
  · rw [if_neg h0, parsePrice_natRepr, if_pos (by omega)]
    congr 1
    push_cast
    omega

/-! ### Claims about the price codec -/

/-- C8: `parsePrice` parses a dotless string as whole units (`w*100`), treats
a one-digit fractional part as a tens-of-cents digit (right-padded with a
zero, so it contributes `c*10`), a two-digit part as the cents value, and
fails when a part is not a base-10 integer; `formatPrice` emits no fraction
for a whole price, one digit for a nonzero multiple-of-ten remainder, and
the bare remainder otherwise — including the concrete test vectors
`213.82 ↔ 21382`, `213.8 ↔ 21380`, `213 ↔ 21300`. -/
theorem c8_price_codec (w c : Nat) :
    parsePrice (natRepr w) = some ((w : Int) * 100) ∧
    (c ≤ 9 → parsePrice (natRepr w ++ "." ++ natRepr c) = some ((w : Int) * 100 + (c : Int) * 10)) ∧
    (10 ≤ c → c ≤ 99 → parsePrice (natRepr w ++ "." ++ natRepr c) = some ((w : Int) * 100 + (c : Int))) ∧
    parsePrice "213.82" = some 21382 ∧ parsePrice "213.8" = some 21380 ∧
    parsePrice "213" = some 21300 ∧ parsePrice "2a3.82" = none ∧ parsePrice "213.8b" = none ∧
    formatPrice 21382 = "213.82" ∧ formatPrice 21380 = "213.8" ∧ formatPrice 21300 = "213" := by
  refine ⟨parsePrice_natRepr w, ?_, ?_, by decide, by decide, by decide, by decide, by decide,
    by decide, by decide, by decide⟩
  · intro h9
    rw [show natRepr c = (⟨(natRepr c).data⟩ : String) from rfl, parsePrice_dot,
      parseGoInt_cents_single h9]
    simp only [Option.map_some', Option.some.injEq]
    push_cast
    ring
  · intro hc1 hc2
    rw [show natRepr c = (⟨(natRepr c).data⟩ : String) from rfl, parsePrice_dot,
      parseGoInt_cents_pair hc1 hc2]
    simp only [Option.map_some', Option.some.injEq]

/-- C8 witness: the padded one-digit case at `213.8 → 21380` and the
two-digit case at `213.82 → 21382`. -/
theorem c8_witness :
    parsePrice (natRepr 213 ++ "." ++ natRepr 8) = some ((213 : Int) * 100 + (8 : Int) * 10) ∧
    parsePrice (natRepr 213 ++ "." ++ natRepr 82) = some ((213 : Int) * 100 + (82 : Int)) :=
  ⟨(c8_price_codec 213 8).2.1 (by decide), (c8_price_codec 213 82).2.2.1 (by decide) (by decide)⟩

/-- C7: for every non-negative price whose cents remainder is `0` or at least
`10`, `parsePrice ∘ formatPrice` is the identity; for remainders `1..9` the
formatted string drops the leading zero of the cents, so the round trip
returns `x + 9 * (x % 100)` instead of `x` — e.g. `21305` formats as
`"213.5"`, which parses back as `21350`. -/
theorem c7_price_roundtrip (x : Int) (hx : 0 ≤ x) :
    ((x.tmod 100 = 0 ∨ 10 ≤ x.tmod 100) → parsePrice (formatPrice x) = some x) ∧
    (1 ≤ x.tmod 100 → x.tmod 100 ≤ 9 →
      parsePrice (formatPrice x) = some (x + 9 * x.tmod 100) ∧
      parsePrice (formatPrice x) ≠ some x) ∧
    formatPrice 21305 = "213.5" ∧ parsePrice "213.5" = some 21350 := by
  obtain ⟨n, rfl⟩ : ∃ n : Nat, x = (n : Int) := ⟨x.toNat, (Int.toNat_of_nonneg hx).symm⟩
  have etm : (n : Int).tmod 100 = ((n % 100 : Nat) : Int) := rfl
  simp only [etm]
  refine ⟨?_, ?_, by decide, by decide⟩
  · intro h
    have hcase : n % 100 = 0 ∨ 10 ≤ n % 100 := by
      rcases h with h | h
      · left; exact_mod_cast h
      · right; exact_mod_cast h
    rw [parsePrice_formatPrice_coe]
    congr 1
    rcases hcase with h | h
    · rw [if_pos (by omega)]
      push_cast
      omega
    · rw [if_neg (by omega)]
      push_cast
      omega
  · intro h1 h9
    have h1' : 1 ≤ n % 100 := by exact_mod_cast h1
    have h9' : n % 100 ≤ 9 := by exact_mod_cast h9
    rw [parsePrice_formatPrice_coe, if_pos h9']
    constructor
    · congr 1
      push_cast
      omega
    · intro he
      rw [Option.some.injEq] at he
      push_cast at he
      omega

/-- C7 witness: the quirk case `21305 → "213.5" → 21350 ≠ 21305` and a
round-trip-safe case `21382`. -/
theorem c7_witness :
    parsePrice (formatPrice (21305 : Int)) = some (21305 + 9 * (21305 : Int).tmod 100) ∧
    parsePrice (formatPrice (21305 : Int)) ≠ some 21305 ∧
    parsePrice (formatPrice (21382 : Int)) = some 21382 :=
  ⟨((c7_price_roundtrip 21305 (by decide)).2.1 (by decide) (by decide)).1,
   ((c7_price_roundtrip 21305 (by decide)).2.1 (by decide) (by decide)).2,
   (c7_price_roundtrip 21382 (by decide)).1 (by decide)⟩

/-! ### Aggregator state lemmas -/

theorem nsPerDay_val : nsPerDay = 86400000000000 := by
  norm_num [nsPerDay, nsPerMinute, nsPerSecond]

theorem TradesStart_val : TradesStart = 25200000000000 := by
  norm_num [TradesStart, nsPerMinute, nsPerSecond]

theorem TradesDuration_val : TradesDuration = 61200000000000 := by
  norm_num [TradesDuration, nsPerMinute, nsPerSecond]

theorem mapLookup_mem {m : CandleMap} {k : String} {c : Candle} :
    mapLookup m k = some c → (k, c) ∈ m := by
  induction m with
  | nil => intro h; simp [mapLookup] at h
  | cons p rest ih =>
    intro h
    obtain ⟨k', c'⟩ := p
    rw [mapLookup] at h
    by_cases he : k' = k
    · rw [if_pos he] at h
      rw [Option.some.injEq] at h
      subst he; subst h
      exact List.mem_cons_self _ _
    · rw [if_neg he] at h
      exact List.mem_cons_of_mem _ (ih h)

theorem mapLookup_update_self {m : CandleMap} {k : String} {c : Candle} (f : Candle → Candle)
    (h : mapLookup m k = some c) : mapLookup (mapUpdate m k f) k = some (f c) := by
  induction m with
  | nil => simp [mapLookup] at h
  | cons p rest ih =>
    obtain ⟨k', c'⟩ := p
    rw [mapLookup] at h
    rw [mapUpdate]
    by_cases he : k' = k
    · rw [if_pos he] at h
      rw [Option.some.injEq] at h
      subst h
      rw [if_pos he, mapLookup, if_pos he]
    · rw [if_neg he] at h
      rw [if_neg he, mapLookup, if_neg he]
      exact ih h

theorem mapLookup_update_ne {m : CandleMap} {k k' : String} (f : Candle → Candle)
    (h : k' ≠ k) : mapLookup (mapUpdate m k' f) k = mapLookup m k := by
  induction m with
  | nil => rfl
  | cons p rest ih =>
    obtain ⟨k0, c0⟩ := p
    rw [mapUpdate]
    by_cases he : k0 = k'
    · subst he
      rw [if_pos rfl, mapLookup, mapLookup, if_neg h, if_neg h]
    · rw [if_neg he, mapLookup, mapLookup]
      by_cases hk : k0 = k
      · rw [if_pos hk, if_pos hk]
      · rw [if_neg hk, if_neg hk]
        exact ih

theorem mapLookup_append_right {m : CandleMap} {k : String} (l : CandleMap)
    (h : mapLookup m k = none) : mapLookup (m ++ l) k = mapLookup l k := by
  induction m with
  | nil => rfl
  | cons p rest ih =>
    obtain ⟨k0, c0⟩ := p
    rw [mapLookup] at h
    rw [List.cons_append, mapLookup]
    by_cases he : k0 = k
    · rw [if_pos he] at h
      exact absurd h (by simp)
    · rw [if_neg he] at h
      rw [if_neg he]
      exact ih h

theorem mapLookup_append_left {m : CandleMap} {k : String} {c : Candle} (l : CandleMap)
    (h : mapLookup m k = some c) : mapLookup (m ++ l) k = some c := by
  induction m with
  | nil => simp [mapLookup] at h
  | cons p rest ih =>
    obtain ⟨k0, c0⟩ := p
    rw [mapLookup] at h
    rw [List.cons_append, mapLookup]
    by_cases he : k0 = k
    · rw [if_pos he] at h
      rw [if_pos he]
      exact h
    · rw [if_neg he] at h
      rw [if_neg he]
      exact ih h

theorem updateCandle_def (c : Candle) (p : Int) :
    updateCandle c p
      = { ticker := c.ticker, start := c.start, priceStart := c.priceStart, priceEnd := p,
          priceMin := if p < c.priceMin then p else c.priceMin,
          priceMax := if c.priceMax < p then p else c.priceMax } := by
  simp only [updateCandle]
  by_cases h1 : p < c.priceMin <;> by_cases h2 : c.priceMax < p <;>
    simp [h1, h2, gt_iff_lt]

theorem aggregate_geometry (st : AggState) (line : Line) :
    (aggregate st line).day = st.day ∧ (aggregate st line).l = st.l ∧
    (aggregate st line).r = st.r ∧ (aggregate st line).max = st.max := by
  simp only [aggregate]
  split <;> exact ⟨rfl, rfl, rfl, rfl⟩

theorem adjustStep_candles (span : Int) (st : AggState) :
    (adjustStep span st).candles = st.candles := by
  simp only [adjustStep]
  split <;> rfl

theorem adjustFuel_candles (span ts : Int) : ∀ (fuel : Nat) (st : AggState),
    (adjustFuel span ts fuel st).candles = st.candles := by
  intro fuel
  induction fuel with
  | zero => intro st; rfl
  | succ fuel ih =>
    intro st
    rw [adjustFuel]
    split
    · rw [ih, adjustStep_candles]
    · rfl

/-- Well-formed session geometry: the session end is the next midnight and
the window end never exceeds it.  These hold in every state `process`
reaches (with the spans the program uses, all at most one session long). -/
def StWf (st : AggState) : Prop := st.max = st.day + nsPerDay ∧ st.r ≤ st.max

instance (st : AggState) : Decidable (StWf st) := by
  unfold StWf
  infer_instance

theorem adjustStep_wf {span : Int} {st : AggState} (hspan : 0 < span)
    (hspan2 : span ≤ TradesDuration) (hwf : StWf st) :
    StWf (adjustStep span st) ∧ st.r < (adjustStep span st).r := by
  obtain ⟨hmax, hrle⟩ := hwf
  rw [TradesDuration_val] at hspan2
  rw [nsPerDay_val] at hmax
  simp only [adjustStep]
  split
  · next heq =>
    dsimp only [StWf]
    rw [nsPerDay_val, TradesStart_val, TradesDuration_val]
    omega
  · next hne =>
    dsimp only [StWf]
    rw [nsPerDay_val]
    split <;> omega

theorem adjustFuel_wf {span ts : Int} (hspan : 0 < span) (hspan2 : span ≤ TradesDuration) :
    ∀ (fuel : Nat) (st : AggState), StWf st → ts ≤ st.r + (fuel : Int) →
      StWf (adjustFuel span ts fuel st) ∧ ts ≤ (adjustFuel span ts fuel st).r := by
  intro fuel
  induction fuel with
  | zero =>
    intro st hwf hb
    exact ⟨hwf, by simpa using hb⟩
  | succ fuel ih =>
    intro st hwf hb
    rw [adjustFuel]
    split
    · next hlt =>
      obtain ⟨hwf', hinc⟩ := adjustStep_wf hspan hspan2 hwf
      refine ih _ hwf' ?_
      push_cast at hb ⊢
      omega
    · next hge => exact ⟨hwf, by omega⟩

theorem adjust_wf {span ts : Int} {st : AggState} (hspan : 0 < span)
    (hspan2 : span ≤ TradesDuration) (hwf : StWf st) :
    StWf (adjust span ts st) ∧ ts ≤ (adjust span ts st).r := by
  apply adjustFuel_wf hspan hspan2 _ _ hwf
  push_cast
  omega

theorem adjust_no_op {span ts : Int} {st : AggState} (h : ts ≤ st.r) :
    adjust span ts st = st := by
  rw [adjust, adjustFuel, if_neg (by omega)]

theorem adjust_candles (span ts : Int) (st : AggState) :
    (adjust span ts st).candles = st.candles :=
  adjustFuel_candles span ts _ st

theorem processStep_flush {span : Int} {st : AggState} {line : Line}
    (hl : st.l ≤ line.timestamp) (hr : st.r ≤ line.timestamp) :
    processStep span st line
      = (aggregate (adjust span line.timestamp { st with candles := [] }) line,
         st.candles.map Prod.snd) := by
  rw [processStep, if_neg (by omega)]
  dsimp only
  rw [if_pos hr]

theorem processStep_inwindow {span : Int} {st : AggState} {line : Line}
    (hl : st.l ≤ line.timestamp) (hr : line.timestamp < st.r) :
    processStep span st line = (aggregate st line, []) := by
  rw [processStep, if_neg (by omega)]
  dsimp only
  rw [if_neg (by omega)]

theorem processStep_discard {span : Int} {st : AggState} {line : Line}
    (h : line.timestamp < st.l) :
    processStep span st line = (st, []) := by
  rw [processStep, if_pos h]

/-! ### Claims about the window-close transition -/

/-- C1 (amended): on a tick at or after the current window end `r`, the
aggregator flushes every open candle and clears its per-ticker state, then
advances `[l, r)` by repeated span steps (jumping to the next calendar day's
session start whenever the boundary reaches the session end, and clipping
`r` to the session end) while the tick is strictly after `r` — so afterwards
`t.timestamp ≤ r` holds, not necessarily `t.timestamp < r`; in particular a
tick whose timestamp equals the current window end causes the flush but no
advance at all, and is aggregated into a fresh candle whose windowStart is
the just-closed window's `l`, not into the next window. -/
theorem c1_window_close (span : Int) (st : AggState) (line : Line)
    (hspan : 0 < span) (hspan2 : span ≤ TradesDuration)
    (hwf : StWf st) (hlr : st.l ≤ st.r) (hcl : st.r ≤ line.timestamp) :
    (processStep span st line).2 = st.candles.map Prod.snd ∧
    line.timestamp ≤ (processStep span st line).1.r ∧
    (line.timestamp = st.r →
      (processStep span st line).1.l = st.l ∧ (processStep span st line).1.r = st.r ∧
      (processStep span st line).1.candles
        = [(line.ticker, newCandle st.l line.ticker line.price)]) := by
  have hl : st.l ≤ line.timestamp := le_trans hlr hcl
  rw [processStep_flush hl hcl]
  have hwf' : StWf { st with candles := ([] : CandleMap) } := hwf
  refine ⟨rfl, ?_, ?_⟩
  · rw [(aggregate_geometry _ _).2.2.1]
    exact (adjust_wf hspan hspan2 hwf').2
  · intro heq
    have hno : adjust span line.timestamp { st with candles := [] } = { st with candles := [] } :=
      adjust_no_op (le_of_eq heq)
    rw [hno]
    refine ⟨(aggregate_geometry _ _).2.1, (aggregate_geometry _ _).2.2.1, ?_⟩
    simp [aggregate, mapLookup]

/-- C1 witness: a 5-minute aggregator holding one open SBER candle in the
window `[07:00, 07:05)` receives a tick at exactly 07:05:00; the candle is
flushed, the window does not move, and the tick opens a fresh candle at
07:00:00. -/
theorem c1_witness :
    (processStep (5 * nsPerMinute)
        { day := 0, l := 420 * nsPerMinute, r := 425 * nsPerMinute,
          max := 1440 * nsPerMinute,
          candles := [("SBER", newCandle (420 * nsPerMinute) "SBER" 21380)] }
        { ticker := "SBER", timestamp := 425 * nsPerMinute, price := 21390, count := 1 }).2
      = [newCandle (420 * nsPerMinute) "SBER" 21380] ∧
    (425 : Int) * nsPerMinute
      ≤ (processStep (5 * nsPerMinute)
          { day := 0, l := 420 * nsPerMinute, r := 425 * nsPerMinute,
            max := 1440 * nsPerMinute,
            candles := [("SBER", newCandle (420 * nsPerMinute) "SBER" 21380)] }
          { ticker := "SBER", timestamp := 425 * nsPerMinute, price := 21390, count := 1 }).1.r ∧
    (processStep (5 * nsPerMinute)
        { day := 0, l := 420 * nsPerMinute, r := 425 * nsPerMinute,
          max := 1440 * nsPerMinute,
          candles := [("SBER", newCandle (420 * nsPerMinute) "SBER" 21380)] }
        { ticker := "SBER", timestamp := 425 * nsPerMinute, price := 21390, count := 1 }).1.candles
      = [("SBER", newCandle (420 * nsPerMinute) "SBER" 21390)] := by
  obtain ⟨h1, h2, h3⟩ :=
    c1_window_close (5 * nsPerMinute)
      { day := 0, l := 420 * nsPerMinute, r := 425 * nsPerMinute,
        max := 1440 * nsPerMinute,
        candles := [("SBER", newCandle (420 * nsPerMinute) "SBER" 21380)] }
      { ticker := "SBER", timestamp := 425 * nsPerMinute, price := 21390, count := 1 }
      (by decide) (by decide) (by decide) (by decide) (by decide)
  exact ⟨h1, h2, (h3 rfl).2.2⟩

/-- C1 counterexample: with a 5-minute span, after a tick at 07:00:01 a
second tick at exactly the window end 07:05:00 yields a candle whose
windowStart is 07:00:00 — the just-closed window — and not 07:05:00, the
next window the claim says it belongs to. -/
theorem c1_counterexample :
    (process (5 * nsPerMinute)
        [{ ticker := "SBER", timestamp := 420 * nsPerMinute + nsPerSecond, price := 21380, count := 1 },
         { ticker := "SBER", timestamp := 425 * nsPerMinute, price := 21390, count := 1 }]).map
        Candle.start
      = [420 * nsPerMinute, 420 * nsPerMinute] ∧
    ¬ (process (5 * nsPerMinute)
        [{ ticker := "SBER", timestamp := 420 * nsPerMinute + nsPerSecond, price := 21380, count := 1 },
         { ticker := "SBER", timestamp := 425 * nsPerMinute, price := 21390, count := 1 }]).map
        Candle.start
      = [420 * nsPerMinute, 425 * nsPerMinute] := by
  decide

/-- C4 (amended): after the flush-and-advance transition the aggregator does
not re-check the tick against the new window start: a tick at or after the
old window end whose timestamp is, after advancing, still before the new `l`
(it falls in the pre-session gap of the next day) is nevertheless aggregated,
leaving exactly one fresh candle for it with windowStart equal to the new
window's `l` — it is not discarded. -/
theorem c4_no_recheck (span : Int) (st : AggState) (line : Line)
    (hlr : st.l ≤ st.r) (hcl : st.r ≤ line.timestamp)
    (hgap : line.timestamp < (adjust span line.timestamp { st with candles := [] }).l) :
    (processStep span st line).1.candles
      = [(line.ticker,
          newCandle (adjust span line.timestamp { st with candles := [] }).l
            line.ticker line.price)] ∧
    (processStep span st line).1.l
      = (adjust span line.timestamp { st with candles := [] }).l := by
  have hl : st.l ≤ line.timestamp := le_trans hlr hcl
  rw [processStep_flush hl hcl]
  have hc : (adjust span line.timestamp { st with candles := [] }).candles = [] := by
    rw [adjust_candles]
  exact ⟨by simp [aggregate, hc, mapLookup], (aggregate_geometry _ _).2.1⟩

/-- C4 witness: a 240-minute aggregator in the first window of day 0, with
one open candle, receives a tick at 01:00 of day 1; the session rolls over,
the tick is before the new session start 07:00, and it still opens a candle
at the new window start (day 1, 07:00). -/
theorem c4_witness :
    (240 : Int) * nsPerMinute ≤ nsPerDay + 60 * nsPerMinute ∧
    nsPerDay + 60 * nsPerMinute < nsPerDay + 420 * nsPerMinute ∧
    (processStep (240 * nsPerMinute)
        { day := 0, l := 420 * nsPerMinute, r := 660 * nsPerMinute,
          max := 1440 * nsPerMinute,
          candles := [("AAPL", newCandle (420 * nsPerMinute) "AAPL" 16320)] }
        { ticker := "AAPL", timestamp := nsPerDay + 60 * nsPerMinute,
          price := 16290, count := 1 }).1.candles
      = [("AAPL", newCandle (nsPerDay + 420 * nsPerMinute) "AAPL" 16290)] := by
  have h := (c4_no_recheck (240 * nsPerMinute)
    { day := 0, l := 420 * nsPerMinute, r := 660 * nsPerMinute,
      max := 1440 * nsPerMinute,
      candles := [("AAPL", newCandle (420 * nsPerMinute) "AAPL" 16320)] }
    { ticker := "AAPL", timestamp := nsPerDay + 60 * nsPerMinute, price := 16290, count := 1 }
    (by decide) (by decide) (by decide)).1
  refine ⟨by decide, by decide, ?_⟩
  rw [h]
  decide

/-- C4 counterexample: with a 240-minute span, a first tick at 07:00:01 of
day 0 followed by a tick at 01:00:00 of day 1 (inside the pre-session gap
`[midnight, 07:00)` of day 1) produces TWO candles — the gap tick is not
discarded but is aggregated into a candle starting at day 1, 07:00:00, with
its price; the claim says it contributes to no candle. -/
theorem c4_counterexample :
    process (240 * nsPerMinute)
        [{ ticker := "AAPL", timestamp := 420 * nsPerMinute + nsPerSecond, price := 16320, count := 1 },
         { ticker := "AAPL", timestamp := nsPerDay + 60 * nsPerMinute, price := 16290, count := 1 }]
      = [newCandle (420 * nsPerMinute) "AAPL" 16320,
         newCandle (nsPerDay + 420 * nsPerMinute) "AAPL" 16290] ∧
    nsPerDay + 60 * nsPerMinute < nsPerDay + 420 * nsPerMinute := by
  decide

/-! ### The candles-map invariant and per-flush uniqueness -/

/-- Invariant of the candles map: its keys are pairwise distinct and every
stored candle's ticker equals its key. -/
def WfMap (m : CandleMap) : Prop :=
  (m.map Prod.fst).Nodup ∧ ∀ p ∈ m, (p.2).ticker = p.1

instance (m : CandleMap) : Decidable (WfMap m) := by
  unfold WfMap
  infer_instance

theorem mapUpdate_keys (m : CandleMap) (k : String) (f : Candle → Candle) :
    (mapUpdate m k f).map Prod.fst = m.map Prod.fst := by
  induction m with
  | nil => rfl
  | cons p rest ih =>
    obtain ⟨k0, c0⟩ := p
    rw [mapUpdate]
    by_cases he : k0 = k
    · rw [if_pos he, List.map_cons, List.map_cons]
    · rw [if_neg he, List.map_cons, List.map_cons, ih]

theorem mapUpdate_mem {m : CandleMap} {k : String} {f : Candle → Candle} {p : String × Candle}
    (hp : p ∈ mapUpdate m k f) : p ∈ m ∨ ∃ c, (k, c) ∈ m ∧ p = (k, f c) := by
  induction m with
  | nil => simp [mapUpdate] at hp
  | cons q rest ih =>
    obtain ⟨k0, c0⟩ := q
    rw [mapUpdate] at hp
    by_cases he : k0 = k
    · rw [if_pos he] at hp
      rcases List.mem_cons.mp hp with h | h
      · subst he
        exact Or.inr ⟨c0, List.mem_cons_self _ _, h⟩
      · exact Or.inl (List.mem_cons_of_mem _ h)
    · rw [if_neg he] at hp
      rcases List.mem_cons.mp hp with h | h
      · exact Or.inl (h ▸ List.mem_cons_self _ _)
      · rcases ih h with h' | ⟨c, hc, hpc⟩
        · exact Or.inl (List.mem_cons_of_mem _ h')
        · exact Or.inr ⟨c, List.mem_cons_of_mem _ hc, hpc⟩

theorem mapLookup_none_key {m : CandleMap} {k : String} (h : mapLookup m k = none) :
    k ∉ m.map Prod.fst := by
  induction m with
  | nil => simp
  | cons p rest ih =>
    obtain ⟨k0, c0⟩ := p
    rw [mapLookup] at h
    by_cases he : k0 = k
    · rw [if_pos he] at h
      cases h
    · rw [if_neg he] at h
      simp only [List.map_cons, List.mem_cons]
      rintro (rfl | hm)
      · exact he rfl
      · exact ih h hm

theorem aggregate_wfmap {st : AggState} {line : Line} (h : WfMap st.candles) :
    WfMap (aggregate st line).candles := by
  obtain ⟨hnd, htk⟩ := h
  cases hl : mapLookup st.candles line.ticker with
  | some c =>
    simp only [aggregate, hl]
    refine ⟨by rw [mapUpdate_keys]; exact hnd, ?_⟩
    intro p hp
    rcases mapUpdate_mem hp with hp' | ⟨c', hc', rfl⟩
    · exact htk p hp'
    · have : (updateCandle c' line.price).ticker = c'.ticker := by
        rw [updateCandle_def]
      rw [this]
      exact htk _ hc'
  | none =>
    simp only [aggregate, hl]
    constructor
    · rw [List.map_append]
      simp only [List.map_cons, List.map_nil]
      rw [List.nodup_append]
      exact ⟨hnd, List.nodup_singleton _, by
        intro a ha hb
        simp only [List.mem_singleton] at hb
        subst hb
        exact mapLookup_none_key hl ha⟩
    · intro p hp
      rcases List.mem_append.mp hp with hp' | hp'
      · exact htk p hp'
      · simp only [List.mem_singleton] at hp'
        subst hp'
        rfl

/-- C3 (amended): within every single step the flushed batch contains at most
one candle per ticker (its tickers are pairwise distinct) and the candles-map
invariant (distinct keys, candle ticker = key) is preserved — so one window's
flush emits at most one candle per ticker.  The remaining parts of the
original claim fail: a (ticker, windowStart) pair can appear twice in the
output, and a ticker with no ticks inside a window can still receive a
candle labelled with that window's start, both because a tick whose
timestamp equals the window end opens a fresh candle carrying the
just-flushed window's start (see the counterexample). -/
theorem c3_flush_unique (span : Int) (st : AggState) (line : Line)
    (h : WfMap st.candles) :
    ((processStep span st line).2.map Candle.ticker).Nodup ∧
    WfMap (processStep span st line).1.candles := by
  by_cases hd : line.timestamp < st.l
  · rw [processStep_discard hd]
    exact ⟨List.nodup_nil, h⟩
  · by_cases hw : st.r ≤ line.timestamp
    · rw [processStep_flush (by omega) hw]
      constructor
      · have : (st.candles.map Prod.snd).map Candle.ticker = st.candles.map Prod.fst := by
          rw [List.map_map]
          exact List.map_congr_left (fun p hp => h.2 p hp)
        rw [this]
        exact h.1
      · apply aggregate_wfmap
        rw [adjust_candles]
        exact ⟨List.nodup_nil, by intro p hp; cases hp⟩
    · rw [processStep_inwindow (by omega) (by omega)]
      exact ⟨List.nodup_nil, aggregate_wfmap h⟩

/-- C3 witness: a step of a well-formed two-ticker state flushes a batch with
distinct tickers and preserves the map invariant. -/
theorem c3_witness :
    WfMap [("AAPL", newCandle (420 * nsPerMinute) "AAPL" 16320),
           ("SBER", newCandle (420 * nsPerMinute) "SBER" 21380)] ∧
    (((processStep (5 * nsPerMinute)
        { day := 0, l := 420 * nsPerMinute, r := 425 * nsPerMinute,
          max := 1440 * nsPerMinute,
          candles := [("AAPL", newCandle (420 * nsPerMinute) "AAPL" 16320),
                      ("SBER", newCandle (420 * nsPerMinute) "SBER" 21380)] }
        { ticker := "AAPL", timestamp := 426 * nsPerMinute, price := 16290, count := 1 }).2.map
        Candle.ticker).Nodup ∧
      WfMap (processStep (5 * nsPerMinute)
        { day := 0, l := 420 * nsPerMinute, r := 425 * nsPerMinute,
          max := 1440 * nsPerMinute,
          candles := [("AAPL", newCandle (420 * nsPerMinute) "AAPL" 16320),
                      ("SBER", newCandle (420 * nsPerMinute) "SBER" 21380)] }
        { ticker := "AAPL", timestamp := 426 * nsPerMinute, price := 16290, count := 1 }).1.candles) :=
  ⟨by decide,
   c3_flush_unique (5 * nsPerMinute)
     { day := 0, l := 420 * nsPerMinute, r := 425 * nsPerMinute,
       max := 1440 * nsPerMinute,
       candles := [("AAPL", newCandle (420 * nsPerMinute) "AAPL" 16320),
                   ("SBER", newCandle (420 * nsPerMinute) "SBER" 21380)] }
     { ticker := "AAPL", timestamp := 426 * nsPerMinute, price := 16290, count := 1 }
     (by decide)⟩

/-- C3 counterexample, refuting two parts of the claim on concrete
non-decreasing streams with a 5-minute span.  First, a two-tick AAPL stream
whose second tick falls at exactly the window end emits two candles with the
SAME (ticker, windowStart) pair, so a pair can appear twice in the output.
Second, on the stream [AAPL@07:00:01, SBER@07:05:00] no SBER tick lies
inside the window [07:00, 07:05), yet a SBER candle with windowStart
07:00:00 is emitted — so a window in which a ticker has no ticks can still
produce a candle for that ticker. -/
theorem c3_counterexample :
    (process (5 * nsPerMinute)
        [{ ticker := "AAPL", timestamp := 420 * nsPerMinute + 2 * nsPerSecond, price := 16320, count := 2 },
         { ticker := "AAPL", timestamp := 425 * nsPerMinute, price := 16290, count := 3 }]).map
        (fun c => (c.ticker, c.start))
      = [("AAPL", 420 * nsPerMinute), ("AAPL", 420 * nsPerMinute)] ∧
    ¬ ((process (5 * nsPerMinute)
        [{ ticker := "AAPL", timestamp := 420 * nsPerMinute + 2 * nsPerSecond, price := 16320, count := 2 },
         { ticker := "AAPL", timestamp := 425 * nsPerMinute, price := 16290, count := 3 }]).map
        (fun c => (c.ticker, c.start))).Nodup ∧
    (∀ l ∈ [({ ticker := "AAPL", timestamp := 420 * nsPerMinute + nsPerSecond, price := 16320,
                count := 1 } : Line),
             { ticker := "SBER", timestamp := 425 * nsPerMinute, price := 21380, count := 1 }],
      l.ticker = "SBER" →
        ¬ (420 * nsPerMinute ≤ l.timestamp ∧ l.timestamp < 425 * nsPerMinute)) ∧
    (process (5 * nsPerMinute)
        [{ ticker := "AAPL", timestamp := 420 * nsPerMinute + nsPerSecond, price := 16320, count := 1 },
         { ticker := "SBER", timestamp := 425 * nsPerMinute, price := 21380, count := 1 }]).map
        (fun c => (c.ticker, c.start))
      = [("AAPL", 420 * nsPerMinute), ("SBER", 420 * nsPerMinute)] := by
  decide

/-! ### Per-window OHLC accumulation -/

/-- The accumulation a single ticker's candle undergoes within one window:
the first price creates the candle (`newCandle`), each later price updates
it (`updateCandle`). -/
def ohlcAcc (start : Int) (tk : String) : Option Candle → List Int → Option Candle
  | c0, [] => c0
  | none, p :: ps => ohlcAcc start tk (some (newCandle start tk p)) ps
  | some c, p :: ps => ohlcAcc start tk (some (updateCandle c p)) ps

theorem mapLookup_append (m l : CandleMap) (k : String) :
    mapLookup (m ++ l) k
      = match mapLookup m k with
        | some c => some c
        | none => mapLookup l k := by
  cases h : mapLookup m k with
  | some c => exact mapLookup_append_left _ h
  | none => exact mapLookup_append_right _ h

theorem mapLookup_aggregate (st : AggState) (line : Line) (tk : String) :
    mapLookup (aggregate st line).candles tk =
      if line.ticker = tk then
        (match mapLookup st.candles tk with
         | none => some (newCandle st.l tk line.price)
         | some c => some (updateCandle c line.price))
      else mapLookup st.candles tk := by
  by_cases he : line.ticker = tk
  · subst he
    rw [if_pos rfl]
    cases hl : mapLookup st.candles line.ticker with
    | none =>
      simp only [aggregate, hl]
      rw [mapLookup_append_right _ hl, mapLookup, if_pos rfl]
    | some c =>
      simp only [aggregate, hl]
      rw [mapLookup_update_self _ hl]
  · rw [if_neg he]
    cases hl : mapLookup st.candles line.ticker with
    | none =>
      simp only [aggregate, hl]
      rw [mapLookup_append]
      cases htk : mapLookup st.candles tk with
      | some c => rfl
      | none => rw [mapLookup, if_neg he, mapLookup]
    | some c =>
      simp only [aggregate, hl]
      rw [mapLookup_update_ne _ he]

theorem updateCandle_ticker (c : Candle) (p : Int) :
    (updateCandle c p).ticker = c.ticker := by rw [updateCandle_def]

theorem updateCandle_start (c : Candle) (p : Int) :
    (updateCandle c p).start = c.start := by rw [updateCandle_def]

theorem updateCandle_priceStart (c : Candle) (p : Int) :
    (updateCandle c p).priceStart = c.priceStart := by rw [updateCandle_def]

theorem updateCandle_priceEnd (c : Candle) (p : Int) :
    (updateCandle c p).priceEnd = p := by rw [updateCandle_def]

theorem updateCandle_priceMax (c : Candle) (p : Int) :
    (updateCandle c p).priceMax = if c.priceMax < p then p else c.priceMax := by
  rw [updateCandle_def]

theorem updateCandle_priceMin (c : Candle) (p : Int) :
    (updateCandle c p).priceMin = if p < c.priceMin then p else c.priceMin := by
  rw [updateCandle_def]

theorem getLast?_cons_eq (a : α) (l : List α) : (a :: l).getLast? = some (l.getLastD a) := by
  induction l generalizing a with
  | nil => rfl
  | cons b t ih =>
    rw [List.getLastD_cons]
    rw [← ih b]
    rfl

theorem ohlcAcc_some_spec (start : Int) (tk : String) :
    ∀ (ps : List Int) (c : Candle),
      ∃ c', ohlcAcc start tk (some c) ps = some c' ∧
        c'.ticker = c.ticker ∧ c'.start = c.start ∧ c'.priceStart = c.priceStart ∧
        c'.priceEnd = ps.getLastD c.priceEnd ∧
        (c'.priceMax = c.priceMax ∨ c'.priceMax ∈ ps) ∧
        c.priceMax ≤ c'.priceMax ∧ (∀ q ∈ ps, q ≤ c'.priceMax) ∧
        (c'.priceMin = c.priceMin ∨ c'.priceMin ∈ ps) ∧
        c'.priceMin ≤ c.priceMin ∧ (∀ q ∈ ps, c'.priceMin ≤ q) := by
  intro ps
  induction ps with
  | nil =>
    intro c
    exact ⟨c, rfl, rfl, rfl, rfl, rfl, Or.inl rfl, le_refl _, by simp, Or.inl rfl, le_refl _,
      by simp⟩
  | cons p ps ih =>
    intro c
    obtain ⟨c', h0, h1, h2, h3, h4, h5, h6, h7, h8, h9, h10⟩ := ih (updateCandle c p)
    rw [updateCandle_ticker] at h1
    rw [updateCandle_start] at h2
    rw [updateCandle_priceStart] at h3
    rw [updateCandle_priceEnd] at h4
    rw [updateCandle_priceMax] at h5 h6
    rw [updateCandle_priceMin] at h8 h9
    refine ⟨c', h0, h1, h2, h3, ?_, ?_, ?_, ?_, ?_, ?_, ?_⟩
    · rw [h4, List.getLastD_cons]
    · by_cases hcp : c.priceMax < p
      · rw [if_pos hcp] at h5
        rcases h5 with h5 | h5
        · exact Or.inr (h5 ▸ List.mem_cons_self _ _)
        · exact Or.inr (List.mem_cons_of_mem _ h5)
      · rw [if_neg hcp] at h5
        rcases h5 with h5 | h5
        · exact Or.inl h5
        · exact Or.inr (List.mem_cons_of_mem _ h5)
    · by_cases hcp : c.priceMax < p
      · rw [if_pos hcp] at h6; omega
      · rw [if_neg hcp] at h6; omega
    · intro q hq
      rcases List.mem_cons.mp hq with rfl | hq
      · by_cases hcp : c.priceMax < q
        · rw [if_pos hcp] at h6; omega
        · rw [if_neg hcp] at h6; omega
      · exact h7 q hq
    · by_cases hcp : p < c.priceMin
      · rw [if_pos hcp] at h8
        rcases h8 with h8 | h8
        · exact Or.inr (h8 ▸ List.mem_cons_self _ _)
        · exact Or.inr (List.mem_cons_of_mem _ h8)
      · rw [if_neg hcp] at h8
        rcases h8 with h8 | h8
        · exact Or.inl h8
        · exact Or.inr (List.mem_cons_of_mem _ h8)
    · by_cases hcp : p < c.priceMin
      · rw [if_pos hcp] at h9; omega
      · rw [if_neg hcp] at h9; omega
    · intro q hq
      rcases List.mem_cons.mp hq with rfl | hq
      · by_cases hcp : q < c.priceMin
        · rw [if_pos hcp] at h9; omega
        · rw [if_neg hcp] at h9; omega
      · exact h10 q hq

theorem ohlcAcc_none_spec (start : Int) (tk : String) (p : Int) (ps : List Int) :
    ∃ c, ohlcAcc start tk none (p :: ps) = some c ∧
      c.ticker = tk ∧ c.start = start ∧ c.priceStart = p ∧
      c.priceEnd = ps.getLastD p ∧
      c.priceMax ∈ p :: ps ∧ (∀ q ∈ p :: ps, q ≤ c.priceMax) ∧
      c.priceMin ∈ p :: ps ∧ (∀ q ∈ p :: ps, c.priceMin ≤ q) := by
  obtain ⟨c', h0, h1, h2, h3, h4, h5, h6, h7, h8, h9, h10⟩ :=
    ohlcAcc_some_spec start tk ps (newCandle start tk p)
  refine ⟨c', h0, h1, h2, h3, h4, ?_, ?_, ?_, ?_⟩
  · rcases h5 with h5 | h5
    · rw [h5]; exact List.mem_cons_self _ _
    · exact List.mem_cons_of_mem _ h5
  · intro q hq
    rcases List.mem_cons.mp hq with rfl | hq
    · exact h6
    · exact h7 q hq
  · rcases h8 with h8 | h8
    · rw [h8]; exact List.mem_cons_self _ _
    · exact List.mem_cons_of_mem _ h8
  · intro q hq
    rcases List.mem_cons.mp hq with rfl | hq
    · exact h9
    · exact h10 q hq

theorem ohlcAcc_nil (start : Int) (tk : String) (c0 : Option Candle) :
    ohlcAcc start tk c0 [] = c0 := by
  cases c0 <;> rfl

theorem processLoop_inwindow (span : Int) (tk : String) :
    ∀ (ls : List Line) (st : AggState),
      (∀ line ∈ ls, st.l ≤ line.timestamp ∧ line.timestamp < st.r) →
      (processLoop span st ls).2 = [] ∧
      (processLoop span st ls).1.l = st.l ∧
      (processLoop span st ls).1.r = st.r ∧
      mapLookup (processLoop span st ls).1.candles tk
        = ohlcAcc st.l tk (mapLookup st.candles tk)
            ((ls.filter (fun l => l.ticker == tk)).map Line.price) := by
  intro ls
  induction ls with
  | nil =>
    intro st _
    refine ⟨rfl, rfl, rfl, ?_⟩
    simp [processLoop, ohlcAcc_nil]
  | cons line rest ih =>
    intro st h
    obtain ⟨hl, hr⟩ := h line (List.mem_cons_self _ _)
    have hrest : ∀ l ∈ rest,
        (aggregate st line).l ≤ l.timestamp ∧ l.timestamp < (aggregate st line).r := by
      intro l hm
      rw [(aggregate_geometry st line).2.1, (aggregate_geometry st line).2.2.1]
      exact h l (List.mem_cons_of_mem _ hm)
    obtain ⟨i1, i2, i3, i4⟩ := ih (aggregate st line) hrest
    simp only [processLoop, processStep_inwindow hl hr]
    refine ⟨by rw [i1]; rfl, ?_, ?_, ?_⟩
    · rw [i2, (aggregate_geometry st line).2.1]
    · rw [i3, (aggregate_geometry st line).2.2.1]
    · rw [i4, (aggregate_geometry st line).2.1, mapLookup_aggregate]
      by_cases he : line.ticker = tk
      · have hfc : (line :: rest).filter (fun l => l.ticker == tk)
            = line :: rest.filter (fun l => l.ticker == tk) := by
          simp [List.filter_cons, he]
        rw [if_pos he, hfc, List.map_cons]
        cases hlk : mapLookup st.candles tk with
        | none => rfl
        | some c => rfl
      · have hfc : (line :: rest).filter (fun l => l.ticker == tk)
            = rest.filter (fun l => l.ticker == tk) := by
          simp [List.filter_cons, he]
        rw [if_neg he, hfc]

theorem initState_fields (span : Int) (line : Line) :
    (initState span line).day = nsPerDay * (line.timestamp.ediv nsPerDay) ∧
    (initState span line).l = nsPerDay * (line.timestamp.ediv nsPerDay) + TradesStart ∧
    (initState span line).r = nsPerDay * (line.timestamp.ediv nsPerDay) + TradesStart + span ∧
    (initState span line).max
      = nsPerDay * (line.timestamp.ediv nsPerDay) + TradesStart + TradesDuration := by
  rw [initState]
  dsimp only
  split <;> exact ⟨rfl, rfl, rfl, rfl⟩

theorem initState_candles_ge {span : Int} {line : Line}
    (h : nsPerDay * (line.timestamp.ediv nsPerDay) + TradesStart ≤ line.timestamp) :
    (initState span line).candles
      = [(line.ticker,
          newCandle (nsPerDay * (line.timestamp.ediv nsPerDay) + TradesStart)
            line.ticker line.price)] := by
  rw [initState]
  dsimp only
  rw [if_neg (by omega)]

theorem process_cons (span : Int) (first : Line) (rest : List Line) :
    process span (first :: rest)
      = (processLoop span (initState span first) rest).2
        ++ (processLoop span (initState span first) rest).1.candles.map Prod.snd := by
  simp only [process]

/-- C5: for a ticker all of whose ticks fall inside the single current
window `[l, r)` (here the session's first window, established by the first
tick), the emitted candle has windowStart `l`, `priceOpen` the ticker's
first in-window price, `priceClose` its last (the last tick always
overwrites), `priceHigh` the maximum and `priceLow` the minimum of its
in-window prices. -/
theorem c5_ohlc_one_window (span : Int) (first : Line) (rest : List Line) (tk : String)
    (hfirst : nsPerDay * (first.timestamp.ediv nsPerDay) + TradesStart ≤ first.timestamp)
    (hin : ∀ line ∈ first :: rest,
      nsPerDay * (first.timestamp.ediv nsPerDay) + TradesStart ≤ line.timestamp ∧
      line.timestamp < nsPerDay * (first.timestamp.ediv nsPerDay) + TradesStart + span)
    (hne : ((first :: rest).filter (fun l => l.ticker == tk)) ≠ []) :
    ∃ c ∈ process span (first :: rest),
      c.ticker = tk ∧
      c.start = nsPerDay * (first.timestamp.ediv nsPerDay) + TradesStart ∧
      some c.priceStart
        = (((first :: rest).filter (fun l => l.ticker == tk)).map Line.price).head? ∧
      some c.priceEnd
        = (((first :: rest).filter (fun l => l.ticker == tk)).map Line.price).getLast? ∧
      c.priceMax ∈ ((first :: rest).filter (fun l => l.ticker == tk)).map Line.price ∧
      (∀ q ∈ ((first :: rest).filter (fun l => l.ticker == tk)).map Line.price,
        q ≤ c.priceMax) ∧
      c.priceMin ∈ ((first :: rest).filter (fun l => l.ticker == tk)).map Line.price ∧
      (∀ q ∈ ((first :: rest).filter (fun l => l.ticker == tk)).map Line.price,
        c.priceMin ≤ q) := by
  obtain ⟨hday, hl, hrr, hmax⟩ := initState_fields span first
  have hrest : ∀ l ∈ rest,
      (initState span first).l ≤ l.timestamp ∧ l.timestamp < (initState span first).r := by
    intro l hm
    rw [hl, hrr]
    exact hin l (List.mem_cons_of_mem _ hm)
  obtain ⟨i1, i2, i3, i4⟩ := processLoop_inwindow span tk rest (initState span first) hrest
  rw [hl] at i4
  have hlook : mapLookup (initState span first).candles tk
      = if first.ticker = tk
        then some (newCandle (nsPerDay * (first.timestamp.ediv nsPerDay) + TradesStart)
          first.ticker first.price)
        else none := by
    rw [initState_candles_ge hfirst, mapLookup]
    by_cases he : first.ticker = tk
    · rw [if_pos he, if_pos he]
    · rw [if_neg he, if_neg he, mapLookup]
  have hcomb : mapLookup (processLoop span (initState span first) rest).1.candles tk
      = ohlcAcc (nsPerDay * (first.timestamp.ediv nsPerDay) + TradesStart) tk none
          (((first :: rest).filter (fun l => l.ticker == tk)).map Line.price) := by
    rw [i4, hlook]
    by_cases he : first.ticker = tk
    · have hfc : (first :: rest).filter (fun l => l.ticker == tk)
          = first :: rest.filter (fun l => l.ticker == tk) := by
        simp [List.filter_cons, he]
      rw [if_pos he, hfc, List.map_cons]
      subst he
      rfl
    · have hfc : (first :: rest).filter (fun l => l.ticker == tk)
          = rest.filter (fun l => l.ticker == tk) := by
        simp [List.filter_cons, he]
      rw [if_neg he, hfc]
  obtain ⟨f0, fs, hfil⟩ := List.exists_cons_of_ne_nil hne
  rw [hfil, List.map_cons] at hcomb
  obtain ⟨c, h0, h1, h2, h3, h4, h5, h6, h7, h8⟩ :=
    ohlcAcc_none_spec (nsPerDay * (first.timestamp.ediv nsPerDay) + TradesStart) tk
      f0.price (fs.map Line.price)
  rw [h0] at hcomb
  refine ⟨c, ?_, h1, h2, ?_, ?_, ?_, ?_, ?_, ?_⟩
  · rw [process_cons, i1, List.nil_append]
    exact List.mem_map.mpr ⟨(tk, c), mapLookup_mem hcomb, rfl⟩
  · rw [hfil, List.map_cons, List.head?_cons, h3]
  · rw [hfil, List.map_cons, getLast?_cons_eq, h4]
  · rw [hfil, List.map_cons]
    exact h5
  · rw [hfil, List.map_cons]
    exact h6
  · rw [hfil, List.map_cons]
    exact h7
  · rw [hfil, List.map_cons]
    exact h8

/-- Concrete input for the C5 witness: three same-ticker AAPL ticks inside
the window `[07:00, 07:05)` with prices 16320, 16288, 16290. -/
def c5Lines : List Line :=
  [{ ticker := "AAPL", timestamp := 420 * nsPerMinute + 2 * nsPerSecond, price := 16320, count := 1 },
   { ticker := "AAPL", timestamp := 420 * nsPerMinute + 9 * nsPerSecond, price := 16288, count := 1 },
   { ticker := "AAPL", timestamp := 420 * nsPerMinute + 10 * nsPerSecond, price := 16290, count := 1 }]

/-- C5 witness: on `c5Lines` (prices 16320, 16288, 16290 in order) one candle
is emitted for AAPL with windowStart 07:00:00, open = first price, close =
last price, high and low the maximum and minimum. -/
theorem c5_witness :
    (c5Lines.filter (fun l => l.ticker == "AAPL")) ≠ [] ∧
    ∃ c ∈ process (5 * nsPerMinute) c5Lines,
      c.ticker = "AAPL" ∧
      c.start = nsPerDay * (((420 : Int) * nsPerMinute + 2 * nsPerSecond).ediv nsPerDay)
          + TradesStart ∧
      some c.priceStart = ((c5Lines.filter (fun l => l.ticker == "AAPL")).map Line.price).head? ∧
      some c.priceEnd = ((c5Lines.filter (fun l => l.ticker == "AAPL")).map Line.price).getLast? ∧
      c.priceMax ∈ (c5Lines.filter (fun l => l.ticker == "AAPL")).map Line.price ∧
      (∀ q ∈ (c5Lines.filter (fun l => l.ticker == "AAPL")).map Line.price, q ≤ c.priceMax) ∧
      c.priceMin ∈ (c5Lines.filter (fun l => l.ticker == "AAPL")).map Line.price ∧
      (∀ q ∈ (c5Lines.filter (fun l => l.ticker == "AAPL")).map Line.price, c.priceMin ≤ q) :=
  ⟨by decide,
   c5_ohlc_one_window (5 * nsPerMinute)
     { ticker := "AAPL", timestamp := 420 * nsPerMinute + 2 * nsPerSecond, price := 16320, count := 1 }
     [{ ticker := "AAPL", timestamp := 420 * nsPerMinute + 9 * nsPerSecond, price := 16288, count := 1 },
      { ticker := "AAPL", timestamp := 420 * nsPerMinute + 10 * nsPerSecond, price := 16290, count := 1 }]
     "AAPL" (by decide) (by decide) (by decide)⟩

/-! ### The candle price-ordering invariant -/

/-- The OHLC ordering invariant of one candle:
`priceMin ≤ priceStart, priceEnd ≤ priceMax` (hence `priceMin ≤ priceMax`). -/
def CandleOK (c : Candle) : Prop :=
  c.priceMin ≤ c.priceStart ∧ c.priceStart ≤ c.priceMax ∧
  c.priceMin ≤ c.priceEnd ∧ c.priceEnd ≤ c.priceMax

instance (c : Candle) : Decidable (CandleOK c) := by
  unfold CandleOK
  infer_instance

theorem newCandle_ok (ts : Int) (tk : String) (p : Int) : CandleOK (newCandle ts tk p) :=
  ⟨le_refl _, le_refl _, le_refl _, le_refl _⟩

theorem updateCandle_ok {c : Candle} (h : CandleOK c) (p : Int) :
    CandleOK (updateCandle c p) := by
  obtain ⟨h1, h2, h3, h4⟩ := h
  unfold CandleOK
  rw [updateCandle_priceMin, updateCandle_priceStart, updateCandle_priceMax,
    updateCandle_priceEnd]
  split_ifs <;> refine ⟨by omega, by omega, by omega, by omega⟩

/-- All candles currently stored in the map satisfy the invariant. -/
def AllOK (m : CandleMap) : Prop := ∀ c ∈ m.map Prod.snd, CandleOK c

theorem aggregate_allok {st : AggState} {line : Line} (h : AllOK st.candles) :
    AllOK (aggregate st line).candles := by
  intro c hc
  cases hl : mapLookup st.candles line.ticker with
  | some c0 =>
    simp only [aggregate, hl] at hc
    rcases List.mem_map.mp hc with ⟨p, hp, rfl⟩
    rcases mapUpdate_mem hp with hp2 | ⟨c1, hc1, rfl⟩
    · exact h _ (List.mem_map.mpr ⟨p, hp2, rfl⟩)
    · exact updateCandle_ok (h _ (List.mem_map.mpr ⟨(line.ticker, c1), hc1, rfl⟩)) _
  | none =>
    simp only [aggregate, hl] at hc
    rw [List.map_append] at hc
    rcases List.mem_append.mp hc with hc2 | hc2
    · exact h _ hc2
    · simp only [List.map_cons, List.map_nil, List.mem_singleton] at hc2
      subst hc2
      exact newCandle_ok _ _ _

theorem processStep_allok (span : Int) (st : AggState) (line : Line) (h : AllOK st.candles) :
    AllOK (processStep span st line).1.candles ∧
    ∀ c ∈ (processStep span st line).2, CandleOK c := by
  by_cases hd : line.timestamp < st.l
  · rw [processStep_discard hd]
    exact ⟨h, by intro c hc; cases hc⟩
  · by_cases hw : st.r ≤ line.timestamp
    · rw [processStep_flush (by omega) hw]
      refine ⟨?_, h⟩
      apply aggregate_allok
      intro c hc
      rw [adjust_candles] at hc
      cases hc
    · rw [processStep_inwindow (by omega) (by omega)]
      exact ⟨aggregate_allok h, by intro c hc; cases hc⟩

theorem processLoop_allok (span : Int) :
    ∀ (ls : List Line) (st : AggState), AllOK st.candles →
      AllOK (processLoop span st ls).1.candles ∧
      ∀ c ∈ (processLoop span st ls).2, CandleOK c := by
  intro ls
  induction ls with
  | nil =>
    intro st h
    exact ⟨h, by intro c hc; cases hc⟩
  | cons line rest ih =>
    intro st h
    obtain ⟨hs1, hs2⟩ := processStep_allok span st line h
    obtain ⟨hl1, hl2⟩ := ih _ hs1
    simp only [processLoop]
    refine ⟨hl1, ?_⟩
    intro c hc
    rcases List.mem_append.mp hc with hc | hc
    · exact hs2 c hc
    · exact hl2 c hc

theorem initState_allok (span : Int) (line : Line) : AllOK (initState span line).candles := by
  rw [initState]
  dsimp only
  split
  · intro c hc
    cases hc
  · intro c hc
    simp only [List.map_cons, List.map_nil, List.mem_singleton] at hc
    subst hc
    exact newCandle_ok _ _ _

/-- C6: every candle satisfies `priceLow ≤ priceOpen ≤ priceHigh` and
`priceLow ≤ priceClose ≤ priceHigh`: creation (`newCandle`) makes all four
prices equal, every tick update preserves the ordering, so the invariant
holds for all candles open in the map after each processed tick and for all
emitted candles of every run. -/
theorem c6_candle_invariant (span : Int) :
    (∀ (lines : List Line), ∀ c ∈ process span lines, CandleOK c) ∧
    (∀ (st : AggState) (line : Line), AllOK st.candles →
      AllOK (processStep span st line).1.candles ∧
      ∀ c ∈ (processStep span st line).2, CandleOK c) := by
  constructor
  · intro lines c hc
    cases lines with
    | nil => simp [process] at hc
    | cons first rest =>
      rw [process_cons] at hc
      obtain ⟨hl1, hl2⟩ :=
        processLoop_allok span rest (initState span first) (initState_allok span first)
      rcases List.mem_append.mp hc with hc | hc
      · exact hl2 c hc
      · exact hl1 c hc
  · intro st line h
    exact processStep_allok span st line h

/-- C6 witness: the single emitted candle of a one-tick run satisfies the
ordering invariant (applying the run-level part of the claim theorem). -/
theorem c6_witness : CandleOK (newCandle (25200000000000 : Int) "AAPL" 16288) :=
  (c6_candle_invariant (5 * nsPerMinute)).1
    [{ ticker := "AAPL", timestamp := 420 * nsPerMinute + 9 * nsPerSecond, price := 16288,
       count := 1 }]
    (newCandle (25200000000000 : Int) "AAPL" 16288)
    (by decide)

/-! ### The first-tick special case -/

/-- C10: the first tick of the stream is checked only against the session
start `l`, never against the first window's end: any first tick with
timestamp at or after `l` immediately opens a candle with windowStart `l`
(`initState`), and a lone first tick yields exactly that candle — even when
its timestamp lies at or beyond the end of the first window. -/
theorem c10_first_tick (span : Int) (line : Line)
    (h : nsPerDay * (line.timestamp.ediv nsPerDay) + TradesStart ≤ line.timestamp) :
    (initState span line).candles
      = [(line.ticker,
          newCandle (nsPerDay * (line.timestamp.ediv nsPerDay) + TradesStart)
            line.ticker line.price)] ∧
    process span [line]
      = [newCandle (nsPerDay * (line.timestamp.ediv nsPerDay) + TradesStart)
          line.ticker line.price] := by
  refine ⟨initState_candles_ge h, ?_⟩
  rw [process_cons]
  show ([] : List Candle) ++ (initState span line).candles.map Prod.snd = _
  rw [initState_candles_ge h]
  rfl

/-- C10 witness: a lone first tick at 10:00 with a 5-minute span yields one
candle whose windowStart is 07:00:00 (the session start), not 10:00:00,
although 10:00 is far beyond the first window's end 07:05. -/
theorem c10_witness :
    nsPerDay * (((600 : Int) * nsPerMinute).ediv nsPerDay) + TradesStart
        ≤ 600 * nsPerMinute ∧
    process (5 * nsPerMinute)
        [{ ticker := "AAPL", timestamp := 600 * nsPerMinute, price := 16288, count := 1 }]
      = [newCandle (nsPerDay * (((600 : Int) * nsPerMinute).ediv nsPerDay) + TradesStart)
          "AAPL" 16288] ∧
    nsPerDay * (((600 : Int) * nsPerMinute).ediv nsPerDay) + TradesStart
      = 420 * nsPerMinute :=
  ⟨by decide,
   (c10_first_tick (5 * nsPerMinute)
     { ticker := "AAPL", timestamp := 600 * nsPerMinute, price := 16288, count := 1 }
     (by decide)).2,
   by decide⟩

/-! ### Claims about the Reader and the Writer -/

/-- C2 (amended): on a parse failure the Reader reports the error on the
error channel AND still forwards the failed line's absent (nil) value —
modelled `none` — to every aggregator; every input line produces exactly one
forwarded entry, and subsequent lines continue to be read, parsed and
broadcast. -/
theorem c2_read_reports_and_forwards (inputs : List String) :
    (read inputs).2.length = inputs.length ∧
    (read inputs).2 = inputs.map (fun s => (parse s).toOption) ∧
    (read inputs).1 = inputs.filterMap
      (fun s => match parse s with | .ok _ => none | .error e => some e) := by
  induction inputs with
  | nil => exact ⟨rfl, rfl, rfl⟩
  | cons s rest ih =>
    obtain ⟨ih1, ih2, ih3⟩ := ih
    cases hp : parse s with
    | ok line =>
      simp only [read, hp]
      exact ⟨by simp [ih1], by simp [ih2, hp, Except.toOption], by simp [ih3, hp]⟩
    | error e =>
      simp only [read, hp]
      exact ⟨by simp [ih1], by simp [ih2, hp, Except.toOption], by simp [ih3, hp]⟩

/-- C2 counterexample: on `["bad", <valid SBER line>]` the Reader reports one
format error but forwards TWO entries — a `none` (the nil pointer) for the
failed line, then the parsed valid line — refuting "forwards nothing for
that line to any aggregator". -/
theorem c2_counterexample :
    read ["bad", "SBER,213.8,100,2019-01-30 06:59:45.000249"]
      = ([ParseErr.invalidFormat],
         [none,
          some { ticker := "SBER", timestamp := 1548831585000249000, price := 21380,
                 count := 100 }]) ∧
    (read ["bad", "SBER,213.8,100,2019-01-30 06:59:45.000249"]).2
      ≠ [some { ticker := "SBER", timestamp := 1548831585000249000, price := 21380,
                count := 100 }] := by
  decide

theorem writeLoop_spec (failAt : Nat → Bool) :
    ∀ (cs : List Candle) (i : Nat),
      (writeLoop failAt i cs).1 = cs.map candleRecord ∧
      (writeLoop failAt i cs).2 = (List.range' i cs.length).filter failAt := by
  intro cs
  induction cs with
  | nil => intro i; exact ⟨rfl, rfl⟩
  | cons c rest ih =>
    intro i
    obtain ⟨ih1, ih2⟩ := ih (i + 1)
    simp only [writeLoop]
    constructor
    · rw [ih1, List.map_cons]
    · rw [ih2, List.length_cons, List.range'_succ, List.filter_cons]

/-- C9: the Writer formats and attempts exactly one record per received
candle — a failed write is reported (its attempt index lands on the error
channel) but does not stop it from writing all subsequent candles — and when
its input is exhausted it signals completion exactly once. -/
theorem c9_write_drains (failAt : Nat → Bool) (cs : List Candle) :
    (write failAt cs).1 = cs.map candleRecord ∧
    (write failAt cs).2.1 = (List.range cs.length).filter failAt ∧
    (write failAt cs).2.2 = 1 := by
  obtain ⟨h1, h2⟩ := writeLoop_spec failAt cs 0
  refine ⟨h1, ?_, rfl⟩
  rw [List.range_eq_range']
  exact h2

end Pipeline
